import Mathlib

/-!
Verification of the Astra voice-assistant front end.

The definitions below are a shallow embedding of the repository's core
orchestration code (the main application variant): the sentence buffer
inside `sendToAstra.onChunk`, the playback queue (`processQueue`), the
voice-state orchestration (`startListening`, `handleVoiceButton`,
`recognitionInstance.onend`, the `sendToAstra` catch handler), and the
`speakResponse` API-key guard.  Strings are modelled as `List Char`;
JavaScript `trim()` is modelled over the common whitespace characters
(space, tab, carriage return, newline, i.e. `Char.isWhitespace`).
-/

set_option maxRecDepth 100000

namespace Astra

/-- The terminal punctuation characters scanned by `onChunk`: `.`, `!`, `?`. -/
def isTerm (c : Char) : Bool := c == '.' || c == '!' || c == '?'

/-- The characters accepted after a terminator (`nextChar === ' ' || nextChar === '\n'`). -/
def isSplitWs (c : Char) : Bool := c == ' ' || c == '\n'

/-- `/\d/.test` on an optional character (the character before a candidate dot). -/
def isDigitOpt : Option Char → Bool
  | some c => c.isDigit
  | none => false

/-- Whether the first character of a list is a digit (the character after a candidate dot). -/
def headIsDigit : List Char → Bool
  | c :: _ => c.isDigit
  | [] => false

/-- Whether the first character of a list is a space or newline
(the `nextChar` test of the scan, applied to the rest of the buffer). -/
def headIsSplitWs : List Char → Bool
  | n :: _ => isSplitWs n
  | [] => false

/-- Drop a trailing run of whitespace (the right half of JavaScript `trim()`). -/
def dropTrailWs : List Char → List Char
  | [] => []
  | c :: rest =>
    let r := dropTrailWs rest
    if r.isEmpty then (if c.isWhitespace then [] else [c]) else c :: r

/-- JavaScript `String.prototype.trim`: drop leading and trailing whitespace. -/
def trimL (l : List Char) : List Char := dropTrailWs (l.dropWhile Char.isWhitespace)

/-- The left-to-right sentence scan of `onChunk` (lines 199–224): walk the buffer
looking for a terminator; a dot flanked by digits is skipped (decimal protection);
an accepted terminator must be the last character or be followed by a space or
newline; the result is the split index `i + 1`.  `prev` is the character before
the current position and `pos` its index. -/
def findSplitAux : Option Char → List Char → Nat → Option Nat
  | _, [], _ => none
  | prev, c :: rest, pos =>
    if isTerm c then
      if c == '.' && isDigitOpt prev && headIsDigit rest then
        findSplitAux (some c) rest (pos + 1)
      else if rest.isEmpty then some (pos + 1)
      else if headIsSplitWs rest then some (pos + 1)
      else findSplitAux (some c) rest (pos + 1)
    else findSplitAux (some c) rest (pos + 1)

/-- The sentence scan started at the beginning of the buffer. -/
def findSplit (l : List Char) : Option Nat := findSplitAux none l 0

/-- Acceptance of a terminator at index `i` ignoring the decimal guard:
terminator, and last character or followed by space/newline. -/
def termAcceptAt (l : List Char) (i : Nat) : Bool :=
  match l.get? i with
  | none => false
  | some c =>
    isTerm c &&
      (i + 1 == l.length ||
        (match l.get? (i + 1) with
          | some n => isSplitWs n
          | none => false))

/-- Acceptance test used by the overflow backward search (lines 235–252):
terminator, not a decimal point (digit on both sides), and last character or
followed by space/newline. -/
def overflowAcceptAt (l : List Char) (i : Nat) : Bool :=
  match l.get? i with
  | none => false
  | some c =>
    isTerm c &&
      !(c == '.' && decide (0 < i) && decide (i + 1 < l.length) &&
        isDigitOpt (l.get? (i - 1)) && isDigitOpt (l.get? (i + 1))) &&
      (i + 1 == l.length ||
        (match l.get? (i + 1) with
          | some n => isSplitWs n
          | none => false))

/-- The overflow backward search (`for (let i = min(220, len-1); i > 100; i--)`):
return `i + 1` at the nearest acceptable terminator, else the default `220`. -/
def overflowSearch (l : List Char) : Nat → Nat
  | 0 => 220
  | i + 1 =>
    if i + 1 ≤ 100 then 220
    else if overflowAcceptAt l (i + 1) then i + 2
    else overflowSearch l i

/-- One iteration of the `onChunk` flushing loop: emit a trimmed sentence at the
first accepted terminator; otherwise, if the buffer exceeds 220 characters,
split at the point found by the overflow backward search; otherwise stop. -/
def splitBuffer (l : List Char) : Option (List Char × List Char) :=
  if l.isEmpty then none
  else
    match findSplit l with
    | some k => some (trimL (l.take k), trimL (l.drop k))
    | none =>
      if 220 < l.length then
        let k := overflowSearch l (min 220 (l.length - 1))
        some (trimL (l.take k), trimL (l.drop k))
      else none

/-- The `while (flushed)` loop of `onChunk`, with explicit fuel (each split
strictly shortens the buffer, so `l.length` fuel always suffices). -/
def drainFuel : Nat → List Char → List (List Char) × List Char
  | 0, l => ([], l)
  | fuel + 1, l =>
    match splitBuffer l with
    | none => ([], l)
    | some (u, b) =>
      let r := drainFuel fuel b
      (u :: r.1, r.2)

/-- Run the flushing loop to completion on a buffer: the emitted sentence units
in order, and the remaining buffer. -/
def drain (l : List Char) : List (List Char) × List Char := drainFuel l.length l

/-- Feed a sequence of stream fragments through the sentence buffer
(successive `onChunk` calls): returns all emitted units and the final buffer. -/
def feedAll : List (List Char) → List Char → List (List Char) × List Char
  | [], buf => ([], buf)
  | c :: cs, buf =>
    let r := drain (buf ++ c)
    let r' := feedAll cs r.2
    (r.1 ++ r'.1, r'.2)

/-- The units pushed to the queue for a whole stream: every unit emitted during
streaming plus the final flush of the remainder
(`if (bufferRef.current && bufferRef.current.trim()) push(trim)`). -/
def finalUnits (frags : List (List Char)) : List (List Char) :=
  let r := feedAll frags []
  if (trimL r.2).isEmpty then r.1 else r.1 ++ [trimL r.2]

/-! ## The turn orchestrator

A small-step model of the main application component.  One step is one
synchronous segment of JavaScript between suspension points; events model the
external stimuli (stream fragments, recognition callbacks, button presses,
playback completion, the scheduled `processQueue` calls and the drain-wait
poll).  Queue items carry a ghost serial number (`nextId`) so that "the same
unit" can be tracked through the queue; `playedLog`, `enqLog`, `directPlayed`,
`dispatches`, `alerts` and `recogStarts` are ghost observation logs that do
not influence the dynamics. -/

/-- The `VoiceState` enumeration of the source. -/
inductive VState
  | inactive
  | listening
  | responding
deriving DecidableEq, Repr

/-- The mutable state of the component: React state, the refs, and ghost logs. -/
structure St where
  voiceState : VState
  lastTranscript : List Char
  userTranscript : List Char
  isListeningActive : Bool
  astraResponse : List Char
  fullResponse : List Char
  inFlight : Bool
  awaitingDrain : Bool
  buffer : List Char
  queue : List (Nat × List Char)
  nextId : Nat
  speaking : Bool
  audio : Bool
  playing : List (Nat × List Char)
  playedLog : List (Nat × List Char)
  enqLog : List (Nat × List Char)
  directPlayed : List (List Char)
  dispatches : List (List Char)
  alerts : Nat
  recogStarts : Nat
deriving DecidableEq, Repr

/-- The initial state (fresh page load). -/
def init : St where
  voiceState := .inactive
  lastTranscript := []
  userTranscript := []
  isListeningActive := false
  astraResponse := []
  fullResponse := []
  inFlight := false
  awaitingDrain := false
  buffer := []
  queue := []
  nextId := 0
  speaking := false
  audio := false
  playing := []
  playedLog := []
  enqLog := []
  directPlayed := []
  dispatches := []
  alerts := 0
  recogStarts := 0

/-- The fixed apology of the `sendToAstra` catch handler. -/
def apologyText : List Char :=
  "Lo siento, no pude procesar tu solicitud en este momento.".toList

/-- `queueRef.current.push(u)`, with a fresh ghost id. -/
def enq1 (s : St) (u : List Char) : St :=
  { s with
    queue := s.queue ++ [(s.nextId, u)]
    enqLog := s.enqLog ++ [(s.nextId, u)]
    nextId := s.nextId + 1 }

/-- Push a list of units in order. -/
def enqAll (s : St) (us : List (List Char)) : St := us.foldl enq1 s

/-- `processQueue` (lines 337–351): if already speaking, return; otherwise pop
the queue head and start speaking it.  The synthesis+playback interval of a
popped unit is modelled as one `playing` period bracketed by this step and a
later `playDone` event. -/
def processQueue (s : St) : St :=
  if s.speaking then s
  else
    match s.queue with
    | [] => s
    | h :: rest =>
      { s with
        queue := rest
        speaking := true
        audio := true
        playing := s.playing ++ [h]
        playedLog := s.playedLog ++ [h] }

/-- The `if (audioRef.current) { pause(); revoke(); … ; isSpeakingRef = false }`
block of the `handleVoiceButton` responding branch. -/
def stopAudioBlock (s : St) : St :=
  if s.audio then { s with audio := false, playing := [], speaking := false } else s

/-- `startListening` (lines 299–326): stop any playback, clear queue, buffer
and transcript, then request the microphone; on success enter `listening` and
start recognition, on failure show an alert (the voice state is not written). -/
def startListening (perm : Bool) (s : St) : St :=
  let s1 := if s.audio then { s with audio := false, playing := [] } else s
  let s2 := { s1 with
    queue := []
    buffer := []
    speaking := false
    lastTranscript := []
    userTranscript := [] }
  if perm then
    { s2 with
      astraResponse := []
      isListeningActive := true
      voiceState := .listening
      recogStarts := s2.recogStarts + 1 }
  else { s2 with isListeningActive := false, alerts := s2.alerts + 1 }

/-- The responding branch of `handleVoiceButton` (lines 641–672, barge-in):
stop and release the audio, clear queue, buffer and transcript, then request
the microphone; on success enter `listening` and start recognition, on failure
show an alert (the voice state is not written). -/
def handleVoiceButtonResponding (perm : Bool) (s : St) : St :=
  let s1 := stopAudioBlock s
  let s2 := { s1 with queue := [], buffer := [], lastTranscript := [] }
  if perm then
    { s2 with
      userTranscript := []
      astraResponse := []
      isListeningActive := true
      voiceState := .listening
      recogStarts := s2.recogStarts + 1 }
  else { s2 with isListeningActive := false, alerts := s2.alerts + 1 }

/-- `recognitionInstance.onend` (lines 141–156): read and clear the stored
transcript; if it is non-empty after trimming and listening was active, enter
`responding` and dispatch `sendToAstra`; otherwise fall back to `inactive`
when currently `listening`. -/
def recognitionOnEnd (s : St) : St :=
  let t := s.lastTranscript
  if (!t.isEmpty) && (!(trimL t).isEmpty) && s.isListeningActive then
    { s with
      lastTranscript := []
      isListeningActive := false
      voiceState := .responding
      dispatches := s.dispatches ++ [t]
      inFlight := true
      awaitingDrain := false
      fullResponse := [] }
  else
    { s with
      lastTranscript := []
      isListeningActive := false
      voiceState := if s.voiceState = .listening then .inactive else s.voiceState }

/-- `onChunk` (lines 181–263): append the fragment to the closure accumulator
and the display, append to the buffer, run the flushing loop, push the emitted
units, then kick `processQueue`.  The source installs no guard tying the
callback to the current turn, so the step applies whenever a request is in
flight, whatever the voice state. -/
def onChunk (c : List Char) (s : St) : St :=
  if s.inFlight then
    let fr := s.fullResponse ++ c
    let r := drain (s.buffer ++ c)
    processQueue (enqAll
      { s with fullResponse := fr, astraResponse := fr, buffer := r.2 } r.1)
  else s

/-- The code after `await processAstraRequest` in `sendToAstra`
(lines 267–277): push the trimmed buffer remainder if non-blank, clear the
buffer, set the final response text, and start the drain-wait loop. -/
def sendToAstraAfterStream (s : St) : St :=
  if s.inFlight then
    let s1 := if (trimL s.buffer).isEmpty then s else enqAll s [trimL s.buffer]
    { s1 with
      buffer := []
      astraResponse := s.fullResponse
      inFlight := false
      awaitingDrain := true }
  else s

/-- The `sendToAstra` catch handler (lines 289–295): display the fixed
apology, speak it by a direct `speakResponse` call (the playback queue is not
touched), then set the voice state to `inactive`. -/
def sendToAstraCatch (s : St) : St :=
  if s.inFlight then
    { s with
      inFlight := false
      awaitingDrain := false
      astraResponse := apologyText
      directPlayed := s.directPlayed ++ [apologyText]
      voiceState := .inactive }
  else s

/-- One tick of the drain-wait interval (lines 279–288): once the queue is
empty and nothing is speaking, resolve and set the voice state to `inactive`. -/
def drainWaitPoll (s : St) : St :=
  if s.awaitingDrain && !s.speaking && s.queue.isEmpty then
    { s with awaitingDrain := false, voiceState := .inactive }
  else s

/-- `recognitionInstance.onerror` (lines 132–139). -/
def recognitionOnError (s : St) : St :=
  { s with
    lastTranscript := []
    userTranscript := []
    isListeningActive := false
    voiceState := .inactive }

/-- The listening branch of `handleVoiceButton` (lines 631–639). -/
def handleVoiceButtonListening (s : St) : St :=
  if s.voiceState = .listening then
    { s with
      lastTranscript := []
      userTranscript := []
      isListeningActive := false
      voiceState := .inactive }
  else s

/-- `audio.onended` / the `finally` of `processQueue`: release the audio and
clear the speaking flag.  The follow-up `setTimeout(processQueue)` is a
separate `procStep` event. -/
def playDone (s : St) : St :=
  if s.audio then
    { s with audio := false, playing := s.playing.drop 1, speaking := false }
  else s

/-- External stimuli driving the component. -/
inductive Ev
  | chunk (c : List Char)
  | streamEnd
  | chatFail
  | drainPoll
  | recogResult (t : List Char)
  | recogEnd
  | recogError
  | startCapture (perm : Bool)
  | bargeIn (perm : Bool)
  | stopBtn
  | playDone
  | procStep
deriving DecidableEq, Repr

/-- One event step. -/
def step (s : St) : Ev → St
  | .chunk c => onChunk c s
  | .streamEnd => sendToAstraAfterStream s
  | .chatFail => sendToAstraCatch s
  | .drainPoll => drainWaitPoll s
  | .recogResult t => { s with userTranscript := t, lastTranscript := t }
  | .recogEnd => recognitionOnEnd s
  | .recogError => recognitionOnError s
  | .startCapture perm => startListening perm s
  | .bargeIn perm =>
      if s.voiceState = .responding then handleVoiceButtonResponding perm s else s
  | .stopBtn => handleVoiceButtonListening s
  | .playDone => playDone s
  | .procStep => processQueue s

/-- Run a list of events from a state. -/
def runFrom (s : St) (evs : List Ev) : St := evs.foldl step s

/-- Run a list of events from the initial state. -/
def run (evs : List Ev) : St := runFrom init evs

/-- Observable effect of one `speakResponse` call. -/
structure SpeakEff where
  ttsRequested : Bool
  audioStarted : Bool
  immediate : Bool
deriving DecidableEq, Repr

/-- `speakResponse` (lines 537–628), as the effect it produces: without the
`VITE_OPENAI_API_KEY` credential it logs and resolves immediately (no fetch,
no audio); with a blank text it resolves immediately; otherwise it issues the
text-to-speech request and, if the request succeeds, creates and plays the
audio resource. -/
def speakResponse (apiKey : Option (List Char)) (text : List Char)
    (fetchOk : Bool) : SpeakEff :=
  match apiKey with
  | none => { ttsRequested := false, audioStarted := false, immediate := true }
  | some _ =>
    if text.isEmpty || (trimL text).isEmpty then
      { ttsRequested := false, audioStarted := false, immediate := true }
    else if fetchOk then
      { ttsRequested := true, audioStarted := true, immediate := false }
    else
      { ttsRequested := true, audioStarted := false, immediate := false }

/-- Playback-queue invariant: the speaking flag is the mutual-exclusion guard
(nothing plays when it is clear), at most one item plays at a time, no item
plays without a held audio resource, and the played items followed by the
still-pending items form a subsequence of the enqueue log (playback begins in
enqueue order; cleared items are skipped, never reordered). -/
def Inv6 (s : St) : Prop :=
  (s.speaking = false → s.playing = []) ∧
  s.playing.length ≤ 1 ∧
  (s.audio = false → s.playing = []) ∧
  (s.playedLog ++ s.queue).Sublist s.enqLog

/-- Ghost-id bookkeeping used to track individual queue items: pending ids are
below the fresh-id counter, ids never repeat between the played log and the
pending queue, the speaking flag implies a held audio resource, and nothing
plays without one. -/
def trackInv (s : St) : Prop :=
  (∀ p ∈ s.queue, p.1 < s.nextId) ∧
  ((s.playedLog ++ s.queue).map Prod.fst).Nodup ∧
  (s.speaking = true → s.audio = true) ∧
  (s.audio = false → s.playing = [])

/-- `WsSub s t`: `s` is obtained from `t` by deleting only whitespace
characters (order and all non-whitespace characters preserved).  This is the
precise sense in which the buffer "loses" characters: only via `trim()`. -/
inductive WsSub : List Char → List Char → Prop
  | nil : WsSub [] []
  | keep (c : Char) {s t : List Char} : WsSub s t → WsSub (c :: s) (c :: t)
  | dropWs (c : Char) {s t : List Char} :
      c.isWhitespace = true → WsSub s t → WsSub s (c :: t)

-- sanity checks on concrete inputs
example : drain ("22.5 grados. Listo.".toList) =
    (["22.5 grados.".toList, "Listo.".toList], []) := by decide

example : finalUnits ["Hola".toList, " mundo. Ya".toList] =
    ["Hola mundo.".toList, "Ya".toList] := by decide

theorem WsSub.refl (l : List Char) : WsSub l l := by
  induction l with
  | nil => exact WsSub.nil
  | cons c rest ih => exact WsSub.keep c ih

theorem WsSub.append {a b c d : List Char} (h₁ : WsSub a b) (h₂ : WsSub c d) :
    WsSub (a ++ c) (b ++ d) := by
  induction h₁ with
  | nil => simpa using h₂
  | keep x _ ih => exact WsSub.keep x ih
  | dropWs x hw _ ih => exact WsSub.dropWs x hw ih

theorem WsSub.of_nil {a : List Char} (h : WsSub a []) : a = [] := by
  cases h; rfl

theorem WsSub.trans {a b c : List Char} (h₁ : WsSub a b) (h₂ : WsSub b c) :
    WsSub a c := by
  induction h₂ generalizing a with
  | nil => exact h₁
  | keep x h ih =>
    cases h₁ with
    | keep _ h' => exact WsSub.keep x (ih h')
    | dropWs _ hw h' => exact WsSub.dropWs x hw (ih h')
  | dropWs x hw h ih => exact WsSub.dropWs x hw (ih h₁)

theorem WsSub.all_ws {l : List Char} (h : ∀ c ∈ l, c.isWhitespace = true) :
    WsSub [] l := by
  induction l with
  | nil => exact WsSub.nil
  | cons c rest ih =>
    exact WsSub.dropWs c (h c (by simp)) (ih fun x hx => h x (by simp [hx]))

theorem WsSub.dropWhileWs (l : List Char) :
    WsSub (l.dropWhile Char.isWhitespace) l := by
  induction l with
  | nil => exact WsSub.nil
  | cons c rest ih =>
    by_cases hc : c.isWhitespace = true
    · simpa [List.dropWhile, hc] using WsSub.dropWs c hc ih
    · simp only [List.dropWhile, Bool.not_eq_true] at hc ⊢
      rw [hc]
      exact WsSub.keep c (WsSub.refl rest)

theorem WsSub.dropTrailWs (l : List Char) : WsSub (Astra.dropTrailWs l) l := by
  induction l with
  | nil => exact WsSub.nil
  | cons c rest ih =>
    simp only [Astra.dropTrailWs]
    by_cases hr : (Astra.dropTrailWs rest).isEmpty
    · have hnil : Astra.dropTrailWs rest = [] := by
        simpa [List.isEmpty_iff] using hr
      rw [hnil] at ih
      by_cases hc : c.isWhitespace = true
      · simpa [hr, hc] using WsSub.dropWs c hc ih
      · simp only [hr, if_true]
        rw [if_neg hc]
        exact WsSub.keep c ih
    · simp only [hr, if_false]
      exact WsSub.keep c ih

theorem WsSub.trimL (l : List Char) : WsSub (Astra.trimL l) l :=
  (WsSub.dropTrailWs _).trans (WsSub.dropWhileWs l)

theorem dropTrailWs_nil_all_ws {l : List Char} (h : dropTrailWs l = []) :
    ∀ c ∈ l, c.isWhitespace = true := by
  induction l with
  | nil => simp
  | cons c rest ih =>
    intro x hx
    simp only [dropTrailWs] at h
    by_cases hr : (dropTrailWs rest).isEmpty
    · simp only [hr, if_true] at h
      by_cases hc : c.isWhitespace = true
      · rcases List.mem_cons.mp hx with rfl | hx'
        · exact hc
        · exact ih (by simpa [List.isEmpty_iff] using hr) x hx'
      · rw [if_neg hc] at h
        simp at h
    · simp only [hr, if_false] at h
      simp at h

theorem trimL_nil_all_ws {l : List Char} (h : trimL l = []) :
    ∀ c ∈ l, c.isWhitespace = true := by
  intro c hc
  have hsplit : l.takeWhile Char.isWhitespace ++ l.dropWhile Char.isWhitespace = l :=
    List.takeWhile_append_dropWhile Char.isWhitespace l
  rw [← hsplit] at hc
  rcases List.mem_append.mp hc with h1 | h2
  · exact List.mem_takeWhile_imp h1
  · exact dropTrailWs_nil_all_ws h c h2

theorem splitBuffer_wsSub {l u b : List Char} (h : splitBuffer l = some (u, b)) :
    WsSub (u ++ b) l := by
  have key : ∀ k : Nat, WsSub (trimL (l.take k) ++ trimL (l.drop k)) l := by
    intro k
    have := WsSub.append (WsSub.trimL (l.take k)) (WsSub.trimL (l.drop k))
    simpa [List.take_append_drop] using this
  simp only [splitBuffer] at h
  by_cases he : l.isEmpty
  · simp [he] at h
  · simp only [he, if_false] at h
    cases hf : findSplit l with
    | some k =>
      rw [hf] at h
      have hu : u = trimL (l.take k) ∧ b = trimL (l.drop k) := by
        simpa using h.symm
      rw [hu.1, hu.2]
      exact key k
    | none =>
      rw [hf] at h
      by_cases hl : 220 < l.length
      · simp only [hl, if_true] at h
        have hu : u = trimL (l.take (overflowSearch l (min 220 (l.length - 1)))) ∧
            b = trimL (l.drop (overflowSearch l (min 220 (l.length - 1)))) := by
          simpa using h.symm
        rw [hu.1, hu.2]
        exact key _
      · simp [hl] at h

theorem drainFuel_wsSub (fuel : Nat) (l : List Char) :
    WsSub ((drainFuel fuel l).1.flatten ++ (drainFuel fuel l).2) l := by
  induction fuel generalizing l with
  | zero => simpa [drainFuel] using WsSub.refl l
  | succ n ih =>
    simp only [drainFuel]
    cases hs : splitBuffer l with
    | none => simpa using WsSub.refl l
    | some ub =>
      obtain ⟨u, b⟩ := ub
      have h1 : WsSub ((drainFuel n b).1.flatten ++ (drainFuel n b).2) b := ih b
      have h2 : WsSub (u ++ b) l := splitBuffer_wsSub hs
      have h3 : WsSub (u ++ ((drainFuel n b).1.flatten ++ (drainFuel n b).2)) (u ++ b) :=
        WsSub.append (WsSub.refl u) h1
      have := h3.trans h2
      simpa [List.append_assoc] using this

theorem drain_wsSub (l : List Char) :
    WsSub ((drain l).1.flatten ++ (drain l).2) l := drainFuel_wsSub _ l

theorem feedAll_wsSub (frags : List (List Char)) (buf : List Char) :
    WsSub ((feedAll frags buf).1.flatten ++ (feedAll frags buf).2)
      (buf ++ frags.flatten) := by
  induction frags generalizing buf with
  | nil => simpa [feedAll] using WsSub.refl buf
  | cons c cs ih =>
    simp only [feedAll]
    have h1 : WsSub ((drain (buf ++ c)).1.flatten ++ (drain (buf ++ c)).2)
        (buf ++ c) := drain_wsSub (buf ++ c)
    have h2 := ih (drain (buf ++ c)).2
    have h3 : WsSub ((drain (buf ++ c)).1.flatten ++
        ((feedAll cs (drain (buf ++ c)).2).1.flatten ++
          (feedAll cs (drain (buf ++ c)).2).2))
        ((drain (buf ++ c)).1.flatten ++ ((drain (buf ++ c)).2 ++ cs.flatten)) :=
      WsSub.append (WsSub.refl _) h2
    have h4 : WsSub ((drain (buf ++ c)).1.flatten ++ ((drain (buf ++ c)).2 ++ cs.flatten))
        ((buf ++ c) ++ cs.flatten) := by
      have := WsSub.append h1 (WsSub.refl cs.flatten)
      simpa [List.append_assoc] using this
    have := h3.trans h4
    simpa [List.append_assoc] using this

/-- C1: For every sequence of text fragments fed to the sentence buffer
(`onChunk` accumulation loop), the concatenation of all emitted sentence units
in emission order, plus the final flushed remainder, reconstructs the
concatenation of the input fragments exactly, up to the whitespace removed by
the `trim()` calls at unit boundaries: the reconstruction is the input with
only whitespace characters deleted, and no other character lost, duplicated or
reordered (`WsSub`). -/
theorem c1_buffer_reconstruction (frags : List (List Char)) :
    WsSub (finalUnits frags).flatten frags.flatten := by
  have h := feedAll_wsSub frags []
  simp only [List.nil_append] at h
  unfold finalUnits
  by_cases hb : (trimL (feedAll frags []).2).isEmpty
  · simp only [hb, if_true]
    have hws : ∀ c ∈ (feedAll frags []).2, c.isWhitespace = true :=
      trimL_nil_all_ws (by simpa [List.isEmpty_iff] using hb)
    have h0 : WsSub ((feedAll frags []).1.flatten ++ [])
        ((feedAll frags []).1.flatten ++ (feedAll frags []).2) :=
      WsSub.append (WsSub.refl _) (WsSub.all_ws hws)
    have := h0.trans h
    simpa using this
  · simp only [hb, if_false]
    have h0 : WsSub ((feedAll frags []).1.flatten ++ trimL (feedAll frags []).2)
        ((feedAll frags []).1.flatten ++ (feedAll frags []).2) :=
      WsSub.append (WsSub.refl _) (WsSub.trimL _)
    have := h0.trans h
    simpa [List.flatten_append] using this

theorem isSplitWs_of_digit {c : Char} (h : c.isDigit = true) : isSplitWs c = false := by
  have h1 : c ≠ ' ' := by
    intro e
    rw [e] at h
    simp [Char.isDigit] at h
  have h2 : c ≠ '\n' := by
    intro e
    rw [e] at h
    simp [Char.isDigit] at h
  simp [isSplitWs, h1, h2]

theorem succ_beq_succ (a b : Nat) : (a + 1 == b + 1) = (a == b) := by
  by_cases h : a = b
  · subst h
    simp
  · have h1 : (a == b) = false := by simpa using h
    have h2 : (a + 1 == b + 1) = false := by
      have : ¬(a + 1 = b + 1) := by omega
      simpa using this
    rw [h1, h2]

theorem findSplitAux_pos {prev : Option Char} {l : List Char} {pos k : Nat}
    (h : findSplitAux prev l pos = some k) : pos < k := by
  induction l generalizing prev pos with
  | nil => simp [findSplitAux] at h
  | cons c rest ih =>
    simp only [findSplitAux] at h
    by_cases ht : isTerm c = true
    · rw [if_pos ht] at h
      by_cases hd : (c == '.' && isDigitOpt prev && headIsDigit rest) = true
      · rw [if_pos hd] at h
        exact Nat.lt_of_succ_lt (ih h)
      · rw [if_neg hd] at h
        by_cases he : rest.isEmpty = true
        · rw [if_pos he] at h
          simp only [Option.some.injEq] at h
          omega
        · rw [if_neg he] at h
          by_cases hw : headIsSplitWs rest = true
          · rw [if_pos hw] at h
            simp only [Option.some.injEq] at h
            omega
          · rw [if_neg hw] at h
            exact Nat.lt_of_succ_lt (ih h)
    · rw [if_neg ht] at h
      exact Nat.lt_of_succ_lt (ih h)

theorem findSplitAux_next_ws {prev : Option Char} {l : List Char} {pos k : Nat}
    (h : findSplitAux prev l pos = some k) :
    ∀ c, (l.drop (k - pos)).head? = some c → isSplitWs c = true := by
  induction l generalizing prev pos with
  | nil => simp [findSplitAux] at h
  | cons c0 rest ih =>
    simp only [findSplitAux] at h
    have hstep : findSplitAux (some c0) rest (pos + 1) = some k →
        ∀ c, ((c0 :: rest).drop (k - pos)).head? = some c → isSplitWs c = true := by
      intro h' c hc
      have hpos2 : pos + 1 < k := findSplitAux_pos h'
      have hdrop : (c0 :: rest).drop (k - pos) = rest.drop (k - (pos + 1)) := by
        have he : k - pos = (k - (pos + 1)) + 1 := by omega
        rw [he, List.drop_succ_cons]
      rw [hdrop] at hc
      exact ih h' c hc
    by_cases ht : isTerm c0 = true
    · rw [if_pos ht] at h
      by_cases hd : (c0 == '.' && isDigitOpt prev && headIsDigit rest) = true
      · rw [if_pos hd] at h
        exact hstep h
      · rw [if_neg hd] at h
        by_cases he : rest.isEmpty = true
        · rw [if_pos he] at h
          simp only [Option.some.injEq] at h
          intro c hc
          have hk : k - pos = 1 := by omega
          rw [hk, List.drop_succ_cons, List.drop_zero] at hc
          rw [List.isEmpty_iff.mp he] at hc
          simp at hc
        · rw [if_neg he] at h
          by_cases hw : headIsSplitWs rest = true
          · rw [if_pos hw] at h
            simp only [Option.some.injEq] at h
            intro c hc
            have hk : k - pos = 1 := by omega
            rw [hk, List.drop_succ_cons, List.drop_zero] at hc
            cases rest with
            | nil => simp at hc
            | cons n rest' =>
              simp only [List.head?_cons, Option.some.injEq] at hc
              rw [← hc]
              simpa [headIsSplitWs] using hw
          · rw [if_neg hw] at h
            exact hstep h
    · rw [if_neg ht] at h
      exact hstep h

theorem termAcceptAt_cons (c0 : Char) (rest : List Char) (i : Nat) :
    termAcceptAt (c0 :: rest) (i + 1) = termAcceptAt rest i := by
  simp only [termAcceptAt, List.get?_cons_succ, List.length_cons, succ_beq_succ]

theorem termAcceptAt_zero (c0 : Char) (rest : List Char) :
    termAcceptAt (c0 :: rest) 0 = (isTerm c0 && (rest.isEmpty || headIsSplitWs rest)) := by
  cases rest with
  | nil => rfl
  | cons n rest' =>
    show (isTerm c0 && ((1 == rest'.length + 1 + 1) || isSplitWs n)) = _
    rw [succ_beq_succ]
    rfl

theorem findSplitAux_none_no_accept {prev : Option Char} {l : List Char} {pos : Nat}
    (h : findSplitAux prev l pos = none) : ∀ i, termAcceptAt l i = false := by
  induction l generalizing prev pos with
  | nil =>
    intro i
    simp [termAcceptAt]
  | cons c0 rest ih =>
    simp only [findSplitAux] at h
    by_cases ht : isTerm c0 = true
    · rw [if_pos ht] at h
      by_cases hd : (c0 == '.' && isDigitOpt prev && headIsDigit rest) = true
      · rw [if_pos hd] at h
        intro i
        cases i with
        | zero =>
          have hdig : headIsDigit rest = true := by
            simp only [Bool.and_eq_true] at hd
            exact hd.2
          cases rest with
          | nil => simp [headIsDigit] at hdig
          | cons d rest' =>
            have hdd : d.isDigit = true := by simpa [headIsDigit] using hdig
            rw [termAcceptAt_zero]
            simp [headIsSplitWs, isSplitWs_of_digit hdd]
        | succ j =>
          rw [termAcceptAt_cons]
          exact ih h j
      · rw [if_neg hd] at h
        by_cases he : rest.isEmpty = true
        · rw [if_pos he] at h
          simp at h
        · rw [if_neg he] at h
          by_cases hw : headIsSplitWs rest = true
          · rw [if_pos hw] at h
            simp at h
          · rw [if_neg hw] at h
            intro i
            cases i with
            | zero =>
              rw [termAcceptAt_zero]
              simp only [Bool.not_eq_true] at he hw
              simp [he, hw]
            | succ j =>
              rw [termAcceptAt_cons]
              exact ih h j
    · rw [if_neg ht] at h
      intro i
      cases i with
      | zero =>
        rw [termAcceptAt_zero]
        simp only [Bool.not_eq_true] at ht
        simp [ht]
      | succ j =>
        rw [termAcceptAt_cons]
        exact ih h j

theorem overflowAcceptAt_implies_term {l : List Char} {i : Nat}
    (h : overflowAcceptAt l i = true) : termAcceptAt l i = true := by
  unfold overflowAcceptAt at h
  unfold termAcceptAt
  cases hg : l.get? i with
  | none =>
    rw [hg] at h
    simp at h
  | some c =>
    rw [hg] at h
    simp only [Bool.and_eq_true] at h ⊢
    exact ⟨h.1.1, h.2⟩

theorem overflowSearch_of_no_accept {l : List Char}
    (hno : ∀ i, overflowAcceptAt l i = false) : ∀ n, overflowSearch l n = 220 := by
  intro n
  induction n with
  | zero => rfl
  | succ m ih =>
    simp only [overflowSearch]
    by_cases h1 : m + 1 ≤ 100
    · simp [h1]
    · simp [h1, hno (m + 1), ih]

theorem dropTrailWs_length_le (l : List Char) : (dropTrailWs l).length ≤ l.length := by
  induction l with
  | nil => simp [dropTrailWs]
  | cons c rest ih =>
    simp only [dropTrailWs]
    by_cases hr : (dropTrailWs rest).isEmpty = true
    · rw [if_pos hr]
      by_cases hc : c.isWhitespace = true
      · rw [if_pos hc]
        simp
      · rw [if_neg hc]
        simp only [List.length_cons, List.length_nil]
        omega
    · rw [if_neg hr]
      simp only [List.length_cons]
      omega

theorem dropWhileWs_length_le (l : List Char) :
    (l.dropWhile Char.isWhitespace).length ≤ l.length := by
  induction l with
  | nil => simp
  | cons c rest ih =>
    rw [List.dropWhile_cons]
    by_cases hc : c.isWhitespace = true
    · rw [if_pos hc]
      simp only [List.length_cons]
      omega
    · rw [if_neg hc]

theorem trimL_length_le (l : List Char) : (trimL l).length ≤ l.length := by
  unfold trimL
  calc (dropTrailWs (l.dropWhile Char.isWhitespace)).length
      ≤ (l.dropWhile Char.isWhitespace).length := dropTrailWs_length_le _
    _ ≤ l.length := dropWhileWs_length_le l

theorem splitBuffer_overflow (l : List Char) (hl : 220 < l.length)
    (hf : findSplit l = none) :
    splitBuffer l = some (trimL (l.take 220), trimL (l.drop 220)) := by
  have hterm : ∀ i, termAcceptAt l i = false := findSplitAux_none_no_accept hf
  have hover : ∀ i, overflowAcceptAt l i = false := by
    intro i
    cases hb : overflowAcceptAt l i with
    | false => rfl
    | true =>
      have ht := overflowAcceptAt_implies_term hb
      rw [hterm i] at ht
      exact absurd ht (by simp)
  have hs : overflowSearch l (min 220 (l.length - 1)) = 220 :=
    overflowSearch_of_no_accept hover _
  have hne : l.isEmpty = false := by
    cases l with
    | nil => simp at hl
    | cons a r => rfl
  unfold splitBuffer
  rw [hf, hne]
  simp only [Bool.false_eq_true, if_false, hl, if_true, hs]

/-- C4 counterexample: the overflow fallback CAN split inside a decimal number.
The 230-character buffer `aaa…a3.5bbbbbbbbb` (218 `a`s, then `3.5`, then 9 `b`s)
contains the digit-dot-digit sequence `3.5` with the dot at index 219; the scan
finds no accepted terminator, the overflow backward search rejects the dot as a
decimal point, so the buffer is split at the hard threshold 220 — immediately
after that dot.  The emitted unit ends with `3.` and the remainder starts with
`5`: the buffer DID split at a terminator whose neighbouring characters are both
digits, refuting the universally quantified claim. -/
theorem c4_counterexample :
    (drain (List.replicate 218 'a' ++ '3' :: '.' :: '5' :: List.replicate 9 'b')).1 =
      [List.replicate 218 'a' ++ ['3', '.']] ∧
    (drain (List.replicate 218 'a' ++ '3' :: '.' :: '5' :: List.replicate 9 'b')).2 =
      '5' :: List.replicate 9 'b' := by decide

/-- C4 amended: the sentence scan itself never splits at a decimal point — the
character immediately after any scan-accepted split index is a space or newline
(hence never a digit, so a digit-dot-digit sequence can never be an accepted
split) — and feeding `"22.5 grados. Listo."` yields exactly the two units
`"22.5 grados."` and `"Listo."`.  Only the overflow fallback split at exactly
the 220-character threshold can cut inside a decimal number. -/
theorem c4_decimal_protection_amended :
    finalUnits ["22.5 grados. Listo.".toList] =
      ["22.5 grados.".toList, "Listo.".toList] ∧
    (∀ (l : List Char) (k : Nat) (c : Char), findSplit l = some k →
      (l.drop k).head? = some c → isSplitWs c = true) := by
  refine ⟨by decide, ?_⟩
  intro l k c hf hc
  have h := findSplitAux_next_ws hf c
  rw [Nat.sub_zero] at h
  exact h hc

/-- Witness for the amended C4 at a concrete input: the scan of `"Hola. x"`
splits at index 5 and the following character is a space. -/
theorem c4_decimal_protection_amended_witness : isSplitWs ' ' = true :=
  c4_decimal_protection_amended.2 "Hola. x".toList 5 ' ' (by decide) (by decide)

/-- C5 counterexample: a single 521-character fragment with no accepted
terminal punctuation (519 `a`s followed by `.` and a tab — the dot is followed
by a tab, which the scan does not accept) first splits at the threshold, but
trimming the remainder removes the tab and exposes the trailing dot, so the
second scan emits a unit of length 300 — longer than the 220 threshold,
refuting "never emits a Sentence Unit longer than the threshold". -/
theorem c5_counterexample :
    220 < (List.replicate 519 'a' ++ ['.', '\t']).length ∧
    findSplit (List.replicate 519 'a' ++ ['.', '\t']) = none ∧
    (drain (List.replicate 519 'a' ++ ['.', '\t'])).1.map List.length = [220, 300] ∧
    ((drain (List.replicate 519 'a' ++ ['.', '\t'])).1.all
      (fun u => decide (u.length ≤ 220))) = false := by decide

/-- C5 amended: for every single fragment longer than the overflow threshold in
which the scan accepts no terminator, the overflow backward search (which uses
the same acceptance rule) also finds nothing, so the split occurs exactly at
the threshold (position 220) and the unit emitted by that overflow split has
length at most 220.  (The original claim's "never emits a unit longer than the
threshold" fails: a later scan split of the trimmed remainder may emit a longer
unit, see the counterexample; and its "split at a terminator between position
100 and the threshold" case is unreachable, because the left-to-right scan
would already have accepted such a terminator.) -/
theorem c5_overflow_split_amended (l : List Char) (hl : 220 < l.length)
    (hf : findSplit l = none) :
    splitBuffer l = some (trimL (l.take 220), trimL (l.drop 220)) ∧
      (trimL (l.take 220)).length ≤ 220 := by
  refine ⟨splitBuffer_overflow l hl hf, ?_⟩
  calc (trimL (l.take 220)).length
      ≤ (l.take 220).length := trimL_length_le _
    _ ≤ 220 := by simp [List.length_take]

/-- Witness for the amended C5 at a concrete input: 221 `a`s split exactly at
the threshold. -/
theorem c5_overflow_split_amended_witness :
    splitBuffer (List.replicate 221 'a') =
      some (trimL ((List.replicate 221 'a').take 220),
        trimL ((List.replicate 221 'a').drop 220)) ∧
      (trimL ((List.replicate 221 'a').take 220)).length ≤ 220 :=
  c5_overflow_split_amended (List.replicate 221 'a') (by decide) (by decide)


/-- C3 (code bug): a late-arriving fragment of the abandoned turn is NOT
ignored after barge-in.  Trace: capture `"hola"`, dispatch, barge-in (new
capture, state `listening`, everything cleared), then the abandoned stream
delivers `"Hola señor. "`.  The fragment overwrites the cleared display, is
queued and even starts playing during the new capture. -/
theorem c3_late_fragment_not_ignored :
    ((run [.startCapture true, .recogResult "hola".toList, .recogEnd,
        .bargeIn true]).astraResponse = [] ∧
      (run [.startCapture true, .recogResult "hola".toList, .recogEnd,
        .bargeIn true]).enqLog = []) ∧
    (run [.startCapture true, .recogResult "hola".toList, .recogEnd, .bargeIn true,
      .chunk "Hola señor. ".toList]).voiceState = .listening ∧
    (run [.startCapture true, .recogResult "hola".toList, .recogEnd, .bargeIn true,
      .chunk "Hola señor. ".toList]).astraResponse = "Hola señor. ".toList ∧
    (run [.startCapture true, .recogResult "hola".toList, .recogEnd, .bargeIn true,
      .chunk "Hola señor. ".toList]).enqLog = [(0, "Hola señor.".toList)] ∧
    (run [.startCapture true, .recogResult "hola".toList, .recogEnd, .bargeIn true,
      .chunk "Hola señor. ".toList]).playedLog = [(0, "Hola señor.".toList)] := by
  decide

/-- C2 counterexample: the claim "no unit queued by the abandoned turn is
played afterwards" fails as stated, because the abandoned turn's stream can
still queue (and play) NEW units after the barge-in: in the trace below the
unit `"Vale."` is queued by the abandoned turn's `onChunk` after the barge-in
and is played while the new capture is listening (before the barge-in the
played log was empty). -/
theorem c2_counterexample :
    (run [.startCapture true, .recogResult "hola".toList, .recogEnd,
      .bargeIn true]).playedLog = [] ∧
    (run [.startCapture true, .recogResult "hola".toList, .recogEnd, .bargeIn true,
      .chunk "Vale. ".toList]).playedLog = [(0, "Vale.".toList)] ∧
    (run [.startCapture true, .recogResult "hola".toList, .recogEnd, .bargeIn true,
      .chunk "Vale. ".toList]).voiceState = .listening := by
  decide

/-- C7 counterexample: on chat failure the fixed apology is displayed and
spoken by a DIRECT `speakResponse` call — it is never enqueued to the playback
queue (the enqueue log stays empty), refuting "speaks it via the Playback
Queue"; the state does return to `inactive` and no second dispatch occurs. -/
theorem c7_counterexample :
    (run [.startCapture true, .recogResult "hola".toList, .recogEnd,
      .chatFail]).astraResponse = apologyText ∧
    (run [.startCapture true, .recogResult "hola".toList, .recogEnd,
      .chatFail]).directPlayed = [apologyText] ∧
    (run [.startCapture true, .recogResult "hola".toList, .recogEnd,
      .chatFail]).enqLog = [] ∧
    (run [.startCapture true, .recogResult "hola".toList, .recogEnd,
      .chatFail]).voiceState = .inactive ∧
    (run [.startCapture true, .recogResult "hola".toList, .recogEnd,
      .chatFail]).dispatches = ["hola".toList] := by
  decide

/-- C7 amended: if the chat dispatch throws or rejects, the orchestrator
displays the fixed apology, speaks it by a direct `speakResponse` call
(bypassing the playback queue, whose contents and enqueue log are untouched),
and returns to `inactive`; the network call is not retried (the dispatch log
is unchanged). -/
theorem c7_chat_failure_amended (s : St) (h : s.inFlight = true) :
    (step s .chatFail).astraResponse = apologyText ∧
    (step s .chatFail).directPlayed = s.directPlayed ++ [apologyText] ∧
    (step s .chatFail).voiceState = .inactive ∧
    (step s .chatFail).dispatches = s.dispatches ∧
    (step s .chatFail).enqLog = s.enqLog ∧
    (step s .chatFail).queue = s.queue := by
  simp [step, sendToAstraCatch, h]

/-- Witness for the amended C7 at a concrete reachable state. -/
theorem c7_chat_failure_amended_witness :
    (step (run [.startCapture true, .recogResult "hola".toList, .recogEnd])
      .chatFail).astraResponse = apologyText ∧
    (step (run [.startCapture true, .recogResult "hola".toList, .recogEnd])
      .chatFail).directPlayed =
      (run [.startCapture true, .recogResult "hola".toList, .recogEnd]).directPlayed
        ++ [apologyText] ∧
    (step (run [.startCapture true, .recogResult "hola".toList, .recogEnd])
      .chatFail).voiceState = .inactive ∧
    (step (run [.startCapture true, .recogResult "hola".toList, .recogEnd])
      .chatFail).dispatches =
      (run [.startCapture true, .recogResult "hola".toList, .recogEnd]).dispatches ∧
    (step (run [.startCapture true, .recogResult "hola".toList, .recogEnd])
      .chatFail).enqLog =
      (run [.startCapture true, .recogResult "hola".toList, .recogEnd]).enqLog ∧
    (step (run [.startCapture true, .recogResult "hola".toList, .recogEnd])
      .chatFail).queue =
      (run [.startCapture true, .recogResult "hola".toList, .recogEnd]).queue :=
  c7_chat_failure_amended (run [.startCapture true, .recogResult "hola".toList,
    .recogEnd]) (by decide)

/-- C8 counterexample: when microphone permission fails during a barge-in from
`responding`, the alert is shown and recognition is not started, but the voice
state does NOT return to `inactive` — it stays `responding` (and further
events of the abandoned turn do not change that), refuting "the voice state is
(or returns to) inactive … including when the capture was initiated as a
barge-in from the responding state". -/
theorem c8_counterexample :
    (run [.startCapture true, .recogResult "hola".toList, .recogEnd,
      .bargeIn false]).voiceState = .responding ∧
    (run [.startCapture true, .recogResult "hola".toList, .recogEnd,
      .bargeIn false]).alerts = 1 ∧
    (run [.startCapture true, .recogResult "hola".toList, .recogEnd,
      .bargeIn false]).recogStarts = 1 ∧
    (run [.startCapture true, .recogResult "hola".toList, .recogEnd, .bargeIn false,
      .chunk "x".toList, .drainPoll, .procStep]).voiceState = .responding := by
  decide

/-- C8 amended: when microphone permission acquisition fails, the alert is
shown, the capture is aborted (recognition is never started, the
listening-active flag is cleared) and the voice state is left UNCHANGED by the
failure handler: it stays `inactive` for a capture started from `inactive`,
and stays `responding` for a barge-in from `responding` (the `listening` state
is never entered). -/
theorem c8_permission_failure_amended (s : St) :
    ((step s (.startCapture false)).voiceState = s.voiceState ∧
      (step s (.startCapture false)).alerts = s.alerts + 1 ∧
      (step s (.startCapture false)).recogStarts = s.recogStarts ∧
      (step s (.startCapture false)).isListeningActive = false) ∧
    (s.voiceState = .responding →
      (step s (.bargeIn false)).voiceState = .responding ∧
      (step s (.bargeIn false)).alerts = s.alerts + 1 ∧
      (step s (.bargeIn false)).recogStarts = s.recogStarts ∧
      (step s (.bargeIn false)).isListeningActive = false) := by
  constructor
  · simp only [step, startListening]
    by_cases ha : s.audio = true <;> simp [ha]
  · intro hv
    simp only [step, hv, if_pos rfl, handleVoiceButtonResponding, stopAudioBlock]
    by_cases ha : s.audio = true <;> simp [ha, hv]

/-- Witness for the amended C8 at a concrete reachable `responding` state. -/
theorem c8_permission_failure_amended_witness :
    (step (run [.startCapture true, .recogResult "hola".toList, .recogEnd])
        (.bargeIn false)).voiceState = .responding ∧
    (step (run [.startCapture true, .recogResult "hola".toList, .recogEnd])
        (.bargeIn false)).alerts =
      (run [.startCapture true, .recogResult "hola".toList, .recogEnd]).alerts + 1 ∧
    (step (run [.startCapture true, .recogResult "hola".toList, .recogEnd])
        (.bargeIn false)).recogStarts =
      (run [.startCapture true, .recogResult "hola".toList, .recogEnd]).recogStarts ∧
    (step (run [.startCapture true, .recogResult "hola".toList, .recogEnd])
        (.bargeIn false)).isListeningActive = false :=
  (c8_permission_failure_amended
    (run [.startCapture true, .recogResult "hola".toList, .recogEnd])).2 (by decide)

/-- C9: if recognition completion fires with an empty or whitespace-only
transcript while the orchestrator is `listening`, no dispatch to the chat
collaborator occurs (the dispatch log and the in-flight flag are unchanged)
and the voice state goes directly back to `inactive`. -/
theorem c9_empty_transcript (s : St) (h1 : s.voiceState = .listening)
    (h2 : trimL s.lastTranscript = []) :
    (step s .recogEnd).voiceState = .inactive ∧
    (step s .recogEnd).dispatches = s.dispatches ∧
    (step s .recogEnd).inFlight = s.inFlight := by
  have hcond : ((!s.lastTranscript.isEmpty) && (!(trimL s.lastTranscript).isEmpty)
      && s.isListeningActive) = false := by
    simp [h2]
  simp only [step, recognitionOnEnd, hcond]
  simp [h1]

/-- Witness for C9: completion with the empty transcript right after a capture
starts. -/
theorem c9_empty_transcript_witness :
    (step (run [.startCapture true]) .recogEnd).voiceState = .inactive ∧
    (step (run [.startCapture true]) .recogEnd).dispatches =
      (run [.startCapture true]).dispatches ∧
    (step (run [.startCapture true]) .recogEnd).inFlight =
      (run [.startCapture true]).inFlight :=
  c9_empty_transcript (run [.startCapture true]) (by decide) (by decide)

/-- C10: with no API key configured (offline/mock mode), `speakResponse`
resolves immediately for every input text and every outcome of the (never
issued) network call: no text-to-speech request is made and no audio playback
is started — offline replies are displayed but never spoken. -/
theorem c10_speakResponse_offline (text : List Char) (fetchOk : Bool) :
    speakResponse none text fetchOk =
      { ttsRequested := false, audioStarted := false, immediate := true } := rfl

theorem enqAll_cons (s : St) (u : List Char) (us : List (List Char)) :
    enqAll s (u :: us) = enqAll (enq1 s u) us := rfl

theorem enqAll_playedLog (us : List (List Char)) (s : St) :
    (enqAll s us).playedLog = s.playedLog := by
  induction us generalizing s with
  | nil => rfl
  | cons u us ih => rw [enqAll_cons, ih (enq1 s u)]; rfl

theorem enqAll_playing (us : List (List Char)) (s : St) :
    (enqAll s us).playing = s.playing := by
  induction us generalizing s with
  | nil => rfl
  | cons u us ih => rw [enqAll_cons, ih (enq1 s u)]; rfl

theorem enqAll_speaking (us : List (List Char)) (s : St) :
    (enqAll s us).speaking = s.speaking := by
  induction us generalizing s with
  | nil => rfl
  | cons u us ih => rw [enqAll_cons, ih (enq1 s u)]; rfl

theorem enqAll_audio (us : List (List Char)) (s : St) :
    (enqAll s us).audio = s.audio := by
  induction us generalizing s with
  | nil => rfl
  | cons u us ih => rw [enqAll_cons, ih (enq1 s u)]; rfl

theorem enqAll_nextId_le (us : List (List Char)) (s : St) :
    s.nextId ≤ (enqAll s us).nextId := by
  induction us generalizing s with
  | nil => exact Nat.le_refl _
  | cons u us ih =>
    rw [enqAll_cons]
    have h1 : s.nextId ≤ (enq1 s u).nextId := by simp [enq1]
    exact h1.trans (ih (enq1 s u))

theorem enqAll_queue_mem {i : Nat} {u : List Char} (us : List (List Char)) (s : St)
    (h : (i, u) ∈ (enqAll s us).queue) : (i, u) ∈ s.queue ∨ s.nextId ≤ i := by
  induction us generalizing s with
  | nil => exact Or.inl h
  | cons v vs ih =>
    rw [enqAll_cons] at h
    rcases ih (enq1 s v) h with h1 | h1
    · have h1' : (i, u) ∈ s.queue ∨ (i = s.nextId ∧ u = v) := by simpa [enq1] using h1
      rcases h1' with h2 | ⟨h2, _⟩
      · exact Or.inl h2
      · right
        omega
    · right
      have hn : (enq1 s v).nextId = s.nextId + 1 := rfl
      rw [hn] at h1
      omega

theorem processQueue_spec (s : St) :
    processQueue s = s ∨
    (s.speaking = false ∧ ∃ p rest, s.queue = p :: rest ∧
      processQueue s = { s with
        queue := rest
        speaking := true
        audio := true
        playing := s.playing ++ [p]
        playedLog := s.playedLog ++ [p] }) := by
  by_cases hs : s.speaking = true
  · left
    simp [processQueue, hs]
  · have hs' : s.speaking = false := by simpa using hs
    cases hq : s.queue with
    | nil => left; simp [processQueue, hs', hq]
    | cons p rest =>
      right
      exact ⟨hs', p, rest, rfl, by simp [processQueue, hs', hq]⟩

theorem processQueue_of_speaking {s : St} (hs : s.speaking = true) :
    processQueue s = s := by
  simp [processQueue, hs]

theorem processQueue_playedLog_mem {i : Nat} {u : List Char} (s : St)
    (h : (i, u) ∈ (processQueue s).playedLog) :
    (i, u) ∈ s.playedLog ∨ (i, u) ∈ s.queue := by
  rcases processQueue_spec s with he | ⟨hs, p, rest, hq, he⟩
  · rw [he] at h
    exact Or.inl h
  · rw [he] at h
    rcases List.mem_append.mp h with h1 | h1
    · exact Or.inl h1
    · right
      rw [hq]
      have hp : (i, u) = p := List.mem_singleton.mp h1
      rw [hp]
      exact List.mem_cons_self p rest

theorem processQueue_queue_mem {i : Nat} {u : List Char} (s : St)
    (h : (i, u) ∈ (processQueue s).queue) : (i, u) ∈ s.queue := by
  rcases processQueue_spec s with he | ⟨hs, p, rest, hq, he⟩
  · rwa [he] at h
  · rw [he] at h
    rw [hq]
    exact List.mem_cons_of_mem p h

theorem processQueue_nextId (s : St) : (processQueue s).nextId = s.nextId := by
  rcases processQueue_spec s with he | ⟨hs, p, rest, hq, he⟩ <;> rw [he]

theorem startListening_ghost (perm : Bool) (s : St) :
    (startListening perm s).playedLog = s.playedLog ∧
    (startListening perm s).queue = [] ∧
    (startListening perm s).nextId = s.nextId := by
  cases perm <;> by_cases ha : s.audio = true <;> simp [startListening, ha]

theorem handleVoiceButtonResponding_ghost (perm : Bool) (s : St) :
    (handleVoiceButtonResponding perm s).playedLog = s.playedLog ∧
    (handleVoiceButtonResponding perm s).queue = [] ∧
    (handleVoiceButtonResponding perm s).nextId = s.nextId := by
  cases perm <;> by_cases ha : s.audio = true <;>
    simp [handleVoiceButtonResponding, stopAudioBlock, ha]

theorem sendToAstraAfterStream_ghost (s : St) :
    (sendToAstraAfterStream s).playedLog = s.playedLog ∧
    (∀ i u, (i, u) ∈ (sendToAstraAfterStream s).queue →
      (i, u) ∈ s.queue ∨ s.nextId ≤ i) ∧
    s.nextId ≤ (sendToAstraAfterStream s).nextId := by
  by_cases hf : s.inFlight = true
  · by_cases hb : (trimL s.buffer).isEmpty = true
    · have he : sendToAstraAfterStream s =
        { s with
          buffer := []
          astraResponse := s.fullResponse
          inFlight := false
          awaitingDrain := true } := by
        simp [sendToAstraAfterStream, hf, hb]
      rw [he]
      exact ⟨rfl, fun i u h => Or.inl h, Nat.le_refl _⟩
    · have he : sendToAstraAfterStream s =
        { enqAll s [trimL s.buffer] with
          buffer := []
          astraResponse := s.fullResponse
          inFlight := false
          awaitingDrain := true } := by
        simp [sendToAstraAfterStream, hf, hb]
      rw [he]
      refine ⟨enqAll_playedLog _ _, ?_, enqAll_nextId_le _ _⟩
      intro i u h
      exact enqAll_queue_mem _ _ h
  · have he : sendToAstraAfterStream s = s := by
      simp [sendToAstraAfterStream, hf]
    rw [he]
    exact ⟨rfl, fun i u h => Or.inl h, Nat.le_refl _⟩

theorem onChunk_eq (c : List Char) {s : St} (hf : s.inFlight = true) :
    onChunk c s = processQueue (enqAll
      { s with
        fullResponse := s.fullResponse ++ c
        astraResponse := s.fullResponse ++ c
        buffer := (drain (s.buffer ++ c)).2 } (drain (s.buffer ++ c)).1) := by
  simp only [onChunk]
  rw [if_pos hf]

theorem onChunk_ghost (c : List Char) (s : St) :
    (∀ i u, (i, u) ∈ (onChunk c s).playedLog →
      (i, u) ∈ s.playedLog ∨ (i, u) ∈ s.queue ∨ s.nextId ≤ i) ∧
    (∀ i u, (i, u) ∈ (onChunk c s).queue → (i, u) ∈ s.queue ∨ s.nextId ≤ i) ∧
    s.nextId ≤ (onChunk c s).nextId := by
  by_cases hf : s.inFlight = true
  · rw [onChunk_eq c hf]
    refine ⟨?_, ?_, ?_⟩
    · intro i u h
      rcases processQueue_playedLog_mem _ h with h1 | h1
      · rw [enqAll_playedLog] at h1
        exact Or.inl h1
      · rcases enqAll_queue_mem (drain (s.buffer ++ c)).1 _ h1 with h2 | h2
        · exact Or.inr (Or.inl h2)
        · exact Or.inr (Or.inr h2)
    · intro i u h
      have h1 := processQueue_queue_mem _ h
      rcases enqAll_queue_mem (drain (s.buffer ++ c)).1 _ h1 with h2 | h2
      · exact Or.inl h2
      · exact Or.inr h2
    · rw [processQueue_nextId]
      exact enqAll_nextId_le (drain (s.buffer ++ c)).1
        { s with
          fullResponse := s.fullResponse ++ c
          astraResponse := s.fullResponse ++ c
          buffer := (drain (s.buffer ++ c)).2 }
  · simp only [onChunk, hf, if_false]
    exact ⟨fun i u h => Or.inl h, fun i u h => Or.inl h, Nat.le_refl _⟩

theorem step_track (s : St) (e : Ev) :
    (∀ i u, (i, u) ∈ (step s e).playedLog →
      (i, u) ∈ s.playedLog ∨ (i, u) ∈ s.queue ∨ s.nextId ≤ i) ∧
    (∀ i u, (i, u) ∈ (step s e).queue → (i, u) ∈ s.queue ∨ s.nextId ≤ i) ∧
    s.nextId ≤ (step s e).nextId := by
  have frame : ∀ t : St, t.playedLog = s.playedLog → (t.queue = s.queue ∨ t.queue = []) →
      t.nextId = s.nextId →
      ((∀ i u, (i, u) ∈ t.playedLog →
        (i, u) ∈ s.playedLog ∨ (i, u) ∈ s.queue ∨ s.nextId ≤ i) ∧
      (∀ i u, (i, u) ∈ t.queue → (i, u) ∈ s.queue ∨ s.nextId ≤ i) ∧
      s.nextId ≤ t.nextId) := by
    intro t hp hq hn
    refine ⟨?_, ?_, Nat.le_of_eq hn.symm⟩
    · intro i u h
      rw [hp] at h
      exact Or.inl h
    · intro i u h
      rcases hq with h2 | h2 <;> rw [h2] at h
      · exact Or.inl h
      · simp at h
  cases e with
  | chunk c => exact onChunk_ghost c s
  | streamEnd =>
    obtain ⟨h1, h2, h3⟩ := sendToAstraAfterStream_ghost s
    refine ⟨?_, ?_, ?_⟩
    · intro i u h
      simp only [step] at h
      rw [h1] at h
      exact Or.inl h
    · intro i u h
      simp only [step] at h
      exact h2 i u h
    · simpa only [step] using h3
  | chatFail =>
    refine frame _ ?_ (Or.inl ?_) ?_ <;>
      by_cases hf : s.inFlight = true <;> simp [step, sendToAstraCatch, hf]
  | drainPoll =>
    refine frame _ ?_ (Or.inl ?_) ?_ <;>
      · simp only [step, drainWaitPoll]
        split <;> rfl
  | recogResult t => exact frame _ rfl (Or.inl rfl) rfl
  | recogEnd =>
    refine frame _ ?_ (Or.inl ?_) ?_ <;>
      · simp only [step, recognitionOnEnd]
        split <;> rfl
  | recogError => exact frame _ rfl (Or.inl rfl) rfl
  | startCapture perm =>
    obtain ⟨h1, h2, h3⟩ := startListening_ghost perm s
    exact frame _ h1 (Or.inr h2) h3
  | bargeIn perm =>
    by_cases hv : s.voiceState = .responding
    · obtain ⟨h1, h2, h3⟩ := handleVoiceButtonResponding_ghost perm s
      refine frame _ ?_ (Or.inr ?_) ?_ <;> simp [step, hv, h1, h2, h3]
    · refine frame _ ?_ (Or.inl ?_) ?_ <;> simp [step, hv]
  | stopBtn =>
    refine frame _ ?_ (Or.inl ?_) ?_ <;>
      · simp only [step, handleVoiceButtonListening]
        split <;> rfl
  | playDone =>
    refine frame _ ?_ (Or.inl ?_) ?_ <;>
      · simp only [step, Astra.playDone]
        split <;> rfl
  | procStep =>
    refine ⟨?_, ?_, ?_⟩
    · intro i u h
      rcases processQueue_playedLog_mem _ h with h1 | h1
      · exact Or.inl h1
      · exact Or.inr (Or.inl h1)
    · intro i u h
      exact Or.inl (processQueue_queue_mem _ h)
    · exact Nat.le_of_eq (processQueue_nextId s).symm

theorem runFrom_playedLog_track (evs : List Ev) (s : St) {i : Nat} {u : List Char}
    (h : (i, u) ∈ (runFrom s evs).playedLog) :
    (i, u) ∈ s.playedLog ∨ (i, u) ∈ s.queue ∨ s.nextId ≤ i := by
  induction evs generalizing s with
  | nil => exact Or.inl h
  | cons e rest ih =>
    have hr : runFrom s (e :: rest) = runFrom (step s e) rest := rfl
    rw [hr] at h
    rcases ih (step s e) h with h1 | h1 | h1
    · exact (step_track s e).1 i u h1
    · rcases (step_track s e).2.1 i u h1 with h2 | h2
      · exact Or.inr (Or.inl h2)
      · exact Or.inr (Or.inr h2)
    · have := (step_track s e).2.2
      exact Or.inr (Or.inr (by omega))

theorem enq1_inv {s : St} (h : Inv6 s) (u : List Char) : Inv6 (enq1 s u) := by
  obtain ⟨h1, h2, h3, h4⟩ := h
  refine ⟨h1, h2, h3, ?_⟩
  have hs := List.Sublist.append h4 (List.Sublist.refl [(s.nextId, u)])
  simpa [List.append_assoc] using hs

theorem enqAll_inv {s : St} (h : Inv6 s) (us : List (List Char)) :
    Inv6 (enqAll s us) := by
  induction us generalizing s with
  | nil => exact h
  | cons u us ih => exact ih (enq1_inv h u)

theorem processQueue_inv {s : St} (h : Inv6 s) : Inv6 (processQueue s) := by
  obtain ⟨h1, h2, h3, h4⟩ := h
  rcases processQueue_spec s with he | ⟨hs, p, rest, hq, he⟩
  · rw [he]
    exact ⟨h1, h2, h3, h4⟩
  · rw [he]
    have hpl : s.playing = [] := h1 hs
    have heq : s.playedLog ++ s.queue = (s.playedLog ++ [p]) ++ rest := by
      rw [hq]
      simp
    refine ⟨by simp, by simp [hpl], by simp, ?_⟩
    show ((s.playedLog ++ [p]) ++ rest).Sublist s.enqLog
    rw [← heq]
    exact h4

theorem startListening_inv {s : St} (h : Inv6 s) (perm : Bool) :
    Inv6 (startListening perm s) := by
  obtain ⟨h1, h2, h3, h4⟩ := h
  have hplayed : s.playedLog.Sublist s.enqLog :=
    (List.sublist_append_left _ _).trans h4
  have hfields : (startListening perm s).playing = [] ∧
      (startListening perm s).queue = [] ∧
      (startListening perm s).playedLog = s.playedLog ∧
      (startListening perm s).enqLog = s.enqLog := by
    by_cases ha : s.audio = true
    · cases perm <;> simp [startListening, ha]
    · have ha' : s.audio = false := by simpa using ha
      cases perm <;> simp [startListening, ha', h3 ha']
  obtain ⟨f1, f2, f3, f4⟩ := hfields
  refine ⟨fun _ => f1, by simp [f1], fun _ => f1, ?_⟩
  rw [f2, f3, f4]
  simpa using hplayed

theorem handleVoiceButtonResponding_inv {s : St} (h : Inv6 s) (perm : Bool) :
    Inv6 (handleVoiceButtonResponding perm s) := by
  obtain ⟨h1, h2, h3, h4⟩ := h
  have hplayed : s.playedLog.Sublist s.enqLog :=
    (List.sublist_append_left _ _).trans h4
  have hfields : (handleVoiceButtonResponding perm s).playing = [] ∧
      (handleVoiceButtonResponding perm s).queue = [] ∧
      (handleVoiceButtonResponding perm s).playedLog = s.playedLog ∧
      (handleVoiceButtonResponding perm s).enqLog = s.enqLog := by
    by_cases ha : s.audio = true
    · cases perm <;> simp [handleVoiceButtonResponding, stopAudioBlock, ha]
    · have ha' : s.audio = false := by simpa using ha
      cases perm <;>
        simp [handleVoiceButtonResponding, stopAudioBlock, ha', h3 ha']
  obtain ⟨f1, f2, f3, f4⟩ := hfields
  refine ⟨fun _ => f1, by simp [f1], fun _ => f1, ?_⟩
  rw [f2, f3, f4]
  simpa using hplayed

theorem step_inv (e : Ev) {s : St} (h : Inv6 s) : Inv6 (step s e) := by
  cases e with
  | chunk c =>
    by_cases hf : s.inFlight = true
    · rw [show step s (.chunk c) = onChunk c s from rfl, onChunk_eq c hf]
      exact processQueue_inv (@enqAll_inv
        { s with
          fullResponse := s.fullResponse ++ c
          astraResponse := s.fullResponse ++ c
          buffer := (drain (s.buffer ++ c)).2 } h (drain (s.buffer ++ c)).1)
    · rw [show step s (.chunk c) = onChunk c s from rfl]
      unfold onChunk
      rw [if_neg hf]
      exact h
  | streamEnd =>
    by_cases hf : s.inFlight = true
    · by_cases hb : (trimL s.buffer).isEmpty = true
      · have he : step s .streamEnd = { s with
            buffer := []
            astraResponse := s.fullResponse
            inFlight := false
            awaitingDrain := true } := by
          simp [step, sendToAstraAfterStream, hf, hb]
        rw [he]
        exact h
      · have he : step s .streamEnd = { enqAll s [trimL s.buffer] with
            buffer := []
            astraResponse := s.fullResponse
            inFlight := false
            awaitingDrain := true } := by
          simp [step, sendToAstraAfterStream, hf, hb]
        rw [he]
        exact enqAll_inv h _
    · have he : step s .streamEnd = s := by
        simp [step, sendToAstraAfterStream, hf]
      rw [he]
      exact h
  | chatFail =>
    by_cases hf : s.inFlight = true
    · have he : step s .chatFail = { s with
          inFlight := false
          awaitingDrain := false
          astraResponse := apologyText
          directPlayed := s.directPlayed ++ [apologyText]
          voiceState := .inactive } := by
        simp [step, sendToAstraCatch, hf]
      rw [he]
      exact h
    · have he : step s .chatFail = s := by simp [step, sendToAstraCatch, hf]
      rw [he]
      exact h
  | drainPoll =>
    by_cases hc : (s.awaitingDrain && !s.speaking && s.queue.isEmpty) = true
    · have he : step s .drainPoll =
          { s with awaitingDrain := false, voiceState := .inactive } := by
        simp only [step, drainWaitPoll]
        rw [if_pos hc]
      rw [he]
      exact h
    · have he : step s .drainPoll = s := by
        simp only [step, drainWaitPoll]
        rw [if_neg hc]
      rw [he]
      exact h
  | recogResult tr => exact h
  | recogEnd =>
    by_cases hc : ((!s.lastTranscript.isEmpty) && (!(trimL s.lastTranscript).isEmpty)
        && s.isListeningActive) = true
    · have he : step s .recogEnd = { s with
          lastTranscript := []
          isListeningActive := false
          voiceState := .responding
          dispatches := s.dispatches ++ [s.lastTranscript]
          inFlight := true
          awaitingDrain := false
          fullResponse := [] } := by
        simp only [step, recognitionOnEnd]
        rw [if_pos hc]
      rw [he]
      exact h
    · have he : step s .recogEnd = { s with
          lastTranscript := []
          isListeningActive := false
          voiceState := if s.voiceState = .listening then .inactive
            else s.voiceState } := by
        simp only [step, recognitionOnEnd]
        rw [if_neg hc]
      rw [he]
      exact h
  | recogError => exact h
  | startCapture perm => exact startListening_inv h perm
  | bargeIn perm =>
    by_cases hv : s.voiceState = .responding
    · have he : step s (.bargeIn perm) = handleVoiceButtonResponding perm s := by
        simp [step, hv]
      rw [he]
      exact handleVoiceButtonResponding_inv h perm
    · have he : step s (.bargeIn perm) = s := by simp [step, hv]
      rw [he]
      exact h
  | stopBtn =>
    by_cases hv : s.voiceState = .listening
    · have he : step s .stopBtn = { s with
          lastTranscript := []
          userTranscript := []
          isListeningActive := false
          voiceState := .inactive } := by
        simp only [step, handleVoiceButtonListening]
        rw [if_pos hv]
      rw [he]
      exact h
    · have he : step s .stopBtn = s := by
        simp only [step, handleVoiceButtonListening]
        rw [if_neg hv]
      rw [he]
      exact h
  | playDone =>
    obtain ⟨h1, h2, h3, h4⟩ := h
    by_cases ha : s.audio = true
    · have he : step s .playDone =
          { s with audio := false, playing := s.playing.drop 1, speaking := false } := by
        simp [step, Astra.playDone, ha]
      rw [he]
      have hdrop : s.playing.drop 1 = [] := by
        have hl := List.length_drop 1 s.playing
        have hz : (s.playing.drop 1).length = 0 := by omega
        exact List.eq_nil_of_length_eq_zero hz
      exact ⟨fun _ => hdrop, by simp [hdrop], fun _ => hdrop, h4⟩
    · have he : step s .playDone = s := by simp [step, Astra.playDone, ha]
      rw [he]
      exact ⟨h1, h2, h3, h4⟩
  | procStep => exact processQueue_inv h

theorem runFrom_inv (evs : List Ev) (s : St) (h : Inv6 s) :
    Inv6 (runFrom s evs) := by
  induction evs generalizing s with
  | nil => exact h
  | cons e rest ih => exact ih (step s e) (step_inv e h)

theorem init_inv : Inv6 init := by
  refine ⟨fun _ => rfl, ?_, fun _ => rfl, ?_⟩ <;> simp [init]

theorem step_playedLog_of_speaking (s : St) (e : Ev) (hs : s.speaking = true) :
    (step s e).playedLog = s.playedLog := by
  cases e with
  | chunk c =>
    by_cases hf : s.inFlight = true
    · rw [show step s (.chunk c) = onChunk c s from rfl, onChunk_eq c hf]
      rw [processQueue_of_speaking (by rw [enqAll_speaking]; exact hs)]
      exact enqAll_playedLog _ _
    · rw [show step s (.chunk c) = onChunk c s from rfl]
      unfold onChunk
      rw [if_neg hf]
  | streamEnd => exact (sendToAstraAfterStream_ghost s).1
  | chatFail =>
    simp only [step, sendToAstraCatch]
    split <;> rfl
  | drainPoll =>
    simp only [step, drainWaitPoll]
    split <;> rfl
  | recogResult tr => rfl
  | recogEnd =>
    simp only [step, recognitionOnEnd]
    split <;> rfl
  | recogError => rfl
  | startCapture perm => exact (startListening_ghost perm s).1
  | bargeIn perm =>
    by_cases hv : s.voiceState = .responding
    · have he : step s (.bargeIn perm) = handleVoiceButtonResponding perm s := by
        simp [step, hv]
      rw [he]
      exact (handleVoiceButtonResponding_ghost perm s).1
    · have he : step s (.bargeIn perm) = s := by simp [step, hv]
      rw [he]
  | stopBtn =>
    simp only [step, handleVoiceButtonListening]
    split <;> rfl
  | playDone =>
    simp only [step, Astra.playDone]
    split <;> rfl
  | procStep =>
    show (processQueue s).playedLog = s.playedLog
    rw [processQueue_of_speaking hs]

/-- C6: the playback queue never plays two items concurrently and plays items
strictly in enqueue order: in every reachable state at most one item is
playing; the sequence of begun items followed by the still-pending items is a
subsequence of the enqueue sequence (playback begins in enqueue order —
cleared items are dropped, never reordered); and a step can only begin a new
item (extend the played log) when the "currently speaking" flag is false
immediately before it. -/
theorem c6_queue_serialization (evs : List Ev) :
    (run evs).playing.length ≤ 1 ∧
    ((run evs).playedLog ++ (run evs).queue).Sublist (run evs).enqLog ∧
    (∀ e, (step (run evs) e).playedLog ≠ (run evs).playedLog →
      (run evs).speaking = false) := by
  have h := runFrom_inv evs init init_inv
  refine ⟨h.2.1, h.2.2.2, ?_⟩
  intro e hne
  cases hsp : (run evs).speaking with
  | false => rfl
  | true => exact absurd (step_playedLog_of_speaking _ e hsp) hne

/-- Witness for C6: in the concrete reachable state right after dispatch, an
arriving fragment begins playback, and indeed the speaking flag was false. -/
theorem c6_queue_serialization_witness :
    (run [.startCapture true, .recogResult "hola".toList, .recogEnd]).speaking
      = false :=
  (c6_queue_serialization [.startCapture true, .recogResult "hola".toList,
    .recogEnd]).2.2 (.chunk "Si. ".toList) (by decide)

/-- C2 amended: a barge-in from `responding` (with the microphone granted)
immediately transitions to `listening`, empties the pending queue, clears the
sentence buffer, stops and releases the playing audio, and clears the speaking
flag; and no unit that was PENDING in the queue at the moment of the barge-in
is ever played afterwards, whatever events follow.  (The original claim's "no
unit queued by the abandoned turn is played afterwards" fails: the abandoned
turn can still queue and play NEW units after the barge-in, see the
counterexample and C3.) -/
theorem c2_barge_in_amended (s : St) (i : Nat) (u : List Char)
    (hinv : trackInv s) (hresp : s.voiceState = .responding)
    (hq : (i, u) ∈ s.queue) :
    (step s (.bargeIn true)).voiceState = .listening ∧
    (step s (.bargeIn true)).queue = [] ∧
    (step s (.bargeIn true)).playing = [] ∧
    (step s (.bargeIn true)).audio = false ∧
    (step s (.bargeIn true)).speaking = false ∧
    (step s (.bargeIn true)).buffer = [] ∧
    ∀ evs, (i, u) ∉ (runFrom (step s (.bargeIn true)) evs).playedLog := by
  obtain ⟨t1, t2, t3, t4⟩ := hinv
  have hstep : step s (.bargeIn true) = handleVoiceButtonResponding true s := by
    simp [step, hresp]
  have hspk : s.audio = false → s.speaking = false := by
    intro ha
    cases hsp : s.speaking with
    | false => rfl
    | true => rw [t3 hsp] at ha; exact absurd ha (by simp)
  have hfields :
      (handleVoiceButtonResponding true s).voiceState = .listening ∧
      (handleVoiceButtonResponding true s).queue = [] ∧
      (handleVoiceButtonResponding true s).playing = [] ∧
      (handleVoiceButtonResponding true s).audio = false ∧
      (handleVoiceButtonResponding true s).speaking = false ∧
      (handleVoiceButtonResponding true s).buffer = [] ∧
      (handleVoiceButtonResponding true s).playedLog = s.playedLog ∧
      (handleVoiceButtonResponding true s).nextId = s.nextId := by
    by_cases ha : s.audio = true
    · simp [handleVoiceButtonResponding, stopAudioBlock, ha]
    · have ha' : s.audio = false := by simpa using ha
      simp [handleVoiceButtonResponding, stopAudioBlock, ha', t4 ha', hspk ha']
  obtain ⟨f1, f2, f3, f4, f5, f6, f7, f8⟩ := hfields
  rw [hstep]
  refine ⟨f1, f2, f3, f4, f5, f6, ?_⟩
  intro evs hmem
  rcases runFrom_playedLog_track evs _ hmem with h1 | h1 | h1
  · rw [f7] at h1
    have hi1 : i ∈ s.playedLog.map Prod.fst := List.mem_map.mpr ⟨(i, u), h1, rfl⟩
    have hi2 : i ∈ s.queue.map Prod.fst := List.mem_map.mpr ⟨(i, u), hq, rfl⟩
    have hnd := t2
    rw [List.map_append] at hnd
    exact (List.nodup_append.mp hnd).2.2 hi1 hi2
  · rw [f2] at h1
    simp at h1
  · rw [f8] at h1
    have h2 : i < s.nextId := t1 (i, u) hq
    omega

/-- Witness for the amended C2: a reachable `responding` state with one unit
playing and one pending; after the barge-in the state is `listening` and the
pending unit `(1, "B.")` is not played in a subsequent event sequence in which
the abandoned turn streams another fragment. -/
theorem c2_barge_in_amended_witness :
    (step (run [.startCapture true, .recogResult "hola".toList, .recogEnd,
      .chunk "A. B. ".toList]) (.bargeIn true)).voiceState = .listening ∧
    (1, "B.".toList) ∉ (runFrom (step (run [.startCapture true,
      .recogResult "hola".toList, .recogEnd, .chunk "A. B. ".toList])
      (.bargeIn true))
      [.chunk "C. ".toList, .procStep, .playDone, .procStep]).playedLog := by
  have h := c2_barge_in_amended
    (run [.startCapture true, .recogResult "hola".toList, .recogEnd,
      .chunk "A. B. ".toList]) 1 "B.".toList
    (by unfold trackInv; decide) (by decide) (by decide)
  exact ⟨h.1, h.2.2.2.2.2.2 [.chunk "C. ".toList, .procStep, .playDone, .procStep]⟩

end Astra
